import Mathlib

/-!
# stevenb256/utl: crypto helpers and `Atoi`

A shallow embedding of `src/crypto.go` (`CryptoKeyFromBase64`, `SealBytes`,
`OpenSealedBytes`, `EncryptBytes`, `DecryptBytes`) and of `Atoi` from
`src/generic.go`, followed by the theorems about them.

Conventions of the embedding.

* A Go `byte` is a `Fin 256`; a `[]byte` and a `string` are lists of bytes
  (a nil slice and an empty slice are both the empty list, "no bytes at all").
* A Go array `[n]byte` is a list of bytes of length exactly `n`.
* A Go function that can abort (a failed assertion, an out-of-range slice
  expression) returns in `Except Panic`.
* The packages the repository imports but does not contain
  (`golang.org/x/crypto/nacl/secretbox`, `golang.org/x/crypto/nacl/box`,
  the random source `crypto/rand.Reader`, `encoding/base64`, `strconv`) are
  parameters of the functions that call them.  A model of
  `base64.StdEncoding` and of `strconv.Atoi` is given so that the functions
  can be evaluated on concrete texts.
-/

namespace Utl

/-! ## Bytes, arrays, slices -/

/-- A Go `byte`. -/
abbrev Byte := Fin 256

/-- A Go `string` (a sequence of bytes). -/
abbrev GoString := List Byte

/-- A Go array `[n]byte`. -/
abbrev ByteArr (n : Nat) := { l : List Byte // l.length = n }

/-- The zero value of `[n]byte` (`var a [n]byte`). -/
def ByteArr.zero (n : Nat) : ByteArr n :=
  ⟨List.replicate n 0, List.length_replicate n 0⟩

/-- Go's builtin `copy(dst, src)` on the contents of `dst`: the first
`min (len dst) (len src)` elements of `dst` are overwritten by those of `src`. -/
def copy (dst src : List Byte) : List Byte :=
  src.take dst.length ++ dst.drop src.length

/-- The builtin `copy(a[:], src)` into an array: `a[:]` spans the whole array. -/
def ByteArr.copyFrom {n : Nat} (a : ByteArr n) (src : List Byte) : ByteArr n :=
  ⟨copy a.val src, by
    have h := a.property
    simp only [copy, List.length_append, List.length_take, List.length_drop]
    omega⟩

/-- The ways a call can abort instead of returning. -/
inductive Panic where
  /-- a failed `_log.Assert` -/
  | assertion
  /-- a slice expression with bounds out of range -/
  | sliceBounds
  deriving DecidableEq, Repr

deriving instance DecidableEq for Except

/-- The slice expression `buf[:hi]`; out of range when `hi` exceeds the length.
A slice is modelled by its elements, with no spare capacity. -/
def sliceTo (buf : List Byte) (hi : Nat) : Except Panic (List Byte) :=
  if hi ≤ buf.length then .ok (buf.take hi) else .error Panic.sliceBounds

/-- The slice expression `buf[lo:]`; out of range when `lo` exceeds the length. -/
def sliceFrom (buf : List Byte) (lo : Nat) : Except Panic (List Byte) :=
  if lo ≤ buf.length then .ok (buf.drop lo) else .error Panic.sliceBounds

/-! ## Constants and error values of `crypto.go` -/

/-- NonceSize size of nonce. -/
abbrev NonceSize : Nat := 24

/-- KeySize length of crypto key. -/
abbrev KeySize : Nat := 32

/-- A nonce, `[NonceSize]byte`. -/
abbrev Nonce := ByteArr NonceSize

/-- A key behind a non-nil `*[KeySize]byte`. -/
abbrev Key := ByteArr KeySize

/-- Go `error` values.  `none : Option Error` is the nil error. -/
inductive Error where
  /-- a value built by `_log.NewError(code, area, text)` -/
  | logError (code : Nat) (area : String) (text : String)
  /-- `base64.CorruptInputError(offset)` -/
  | corruptInput (offset : Nat)
  /-- `strconv.ErrSyntax` wrapped in a `*strconv.NumError` -/
  | numSyntax
  /-- `strconv.ErrRange` wrapped in a `*strconv.NumError` -/
  | numRange
  /-- an error of the random source -/
  | readError (text : String)
  deriving DecidableEq, Repr

/-- The constructor `_log.NewError`. -/
def NewError (code : Nat) (area text : String) : Error :=
  Error.logError code area text

/-- ErrInvalidCryptoKey invalid crypto key. -/
def ErrInvalidCryptoKey : Error := NewError 100 "crypto" "invalid crypto key length"

/-- ErrCantOpenSealedBytes can not open sealed bytes; crypto problem. -/
def ErrCantOpenSealedBytes : Error := NewError 101 "crypto" "unable to open/unseal bytes"

/-- ErrCantDecryptBytes can not decrypt bytes encrypted in other function. -/
def ErrCantDecryptBytes : Error := NewError 102 "crypto" "unable to decrypt bytes"

/-! ## The logging package `github.com/stevenb256/log` -/

/-- Modelled from the spec: `_log.Check(err)` of the logging package
`github.com/stevenb256/log` (absent from the sources) reports whether `err`
is a failure, that is non-nil; the spec has every error "returned to the
immediate caller". -/
def Check (err : Option Error) : Bool := err.isSome

/-- Modelled from the spec: `_log.Fail(err, args...)` of the logging package
(absent from the sources) records the failure and hands back `err`; the spec
has `Open` fail "signaling `ErrCantOpenSealedBytes`".  The arguments only
feed the log. -/
def Fail (err : Error) : Error := err

/-- Modelled from the spec: `_log.Assert(cond)` of the logging package (absent
from the sources) raises the "documented precondition violation" when `cond`
is false and does nothing otherwise. -/
def Assert (cond : Bool) : Except Panic Unit :=
  if cond then .ok () else .error Panic.assertion

/-! ## The external primitives -/

/-- The package `golang.org/x/crypto/nacl/secretbox`.
`Seal out message nonce key` and `Open out box nonce key`; `Open` returns
the pair of Go results `([]byte, bool)`. -/
structure Secretbox where
  Seal : List Byte → List Byte → Nonce → Key → List Byte
  Open : List Byte → List Byte → Nonce → Key → List Byte × Bool

/-- The package `golang.org/x/crypto/nacl/box`.
`Seal out message nonce peersPublicKey privateKey` and
`Open out box nonce peersPublicKey privateKey`. -/
structure Box where
  Seal : List Byte → List Byte → Nonce → Key → Key → List Byte
  Open : List Byte → List Byte → Nonce → Key → Key → List Byte × Bool

/-- The tag length `secretbox.Overhead` = `box.Overhead` = `poly1305.TagSize`. -/
def Overhead : Nat := 16

/-- What one `io.ReadFull(rand.Reader, buf)` does: the bytes it delivered into
the front of `buf` and the error it returned. -/
structure ReadResult where
  delivered : List Byte
  err : Option Error

/-- The state of `nonce` after `io.ReadFull(rand.Reader, nonce[:])`: the
delivered bytes overwrite the front of the array, the rest is untouched. -/
def ReadFull (rd : ReadResult) (buf : Nonce) : Nonce := buf.copyFrom rd.delivered

/-! ## `crypto.go` -/

/-- CryptoKeyFromBase64 get crypto key from base64 string.
`DecodeString` is `base64.StdEncoding.DecodeString`. -/
def CryptoKeyFromBase64 (DecodeString : GoString → List Byte × Option Error)
    (key64 : GoString) : Option Key × Option Error :=
  let (buf, err) := DecodeString key64
  if Check err then
    (none, err)
  else if buf.length != KeySize then
    (none, some (Fail ErrInvalidCryptoKey))
  else
    let key : Key := ByteArr.zero KeySize
    let key := key.copyFrom buf
    (some key, none)

/-- SealBytes encrypts/signs buffer with a public key of recipient and private
key of the sender. -/
def SealBytes (B : Box) (rd : ReadResult) (buf : List Byte) (pub priv : Key) :
    List Byte × Option Error :=
  let nonce : Nonce := ByteArr.zero NonceSize
  let nonce := ReadFull rd nonce
  (B.Seal nonce.val buf nonce pub priv, none)

/-- OpenSealedBytes - decrypts bytes with public key of the sender and private
key of the recipient. -/
def OpenSealedBytes (B : Box) (buf : List Byte) (pub priv : Key) :
    Except Panic (List Byte × Option Error) := do
  let nonce : Nonce := ByteArr.zero NonceSize
  Assert (decide (buf.length ≥ nonce.val.length))
  let head ← sliceTo buf NonceSize
  let nonce := nonce.copyFrom head
  let tail ← sliceFrom buf NonceSize
  let (clear, b) := B.Open [] tail nonce pub priv
  if false == b then
    return ([], some (Fail ErrCantOpenSealedBytes))
  return (clear, none)

/-- EncryptBytes used to just encrypt bytes with a random key. -/
def EncryptBytes (S : Secretbox) (rd : ReadResult) (inp : List Byte) (key : Key) :
    List Byte × Option Error :=
  let nonce : Nonce := ByteArr.zero NonceSize
  let nonce := ReadFull rd nonce
  let out : List Byte := List.replicate NonceSize 0
  let out := copy out nonce.val
  (S.Seal out inp nonce key, none)

/-- DecryptBytes used to decrypt bytes with a key used in EncryptBytes. -/
def DecryptBytes (S : Secretbox) (inp : List Byte) (key : Key) :
    Except Panic (List Byte × Option Error) := do
  let nonce : Nonce := ByteArr.zero NonceSize
  Assert (decide (inp.length ≥ NonceSize))
  let head ← sliceTo inp NonceSize
  let nonce := nonce.copyFrom head
  let tail ← sliceFrom inp NonceSize
  let (out, worked) := S.Open [] tail nonce key
  if false == worked then
    return ([], some (Fail ErrCantDecryptBytes))
  return (out, none)

/-! ## `generic.go` -/

/-- Atoi - atoi that does not fail and instead returns 0 (the comment of the
source; the body returns `-1`).  `strconvAtoi` is `strconv.Atoi`. -/
def Atoi (strconvAtoi : GoString → Int × Option Error) (s : GoString) : Int :=
  let (i, err) := strconvAtoi s
  if Check err then
    -1
  else
    i

/-! ## A model of `encoding/base64`, `StdEncoding`

The standard library is not part of the repository.  The model follows
`base64.go`: the alphabet `encodeStd`, the padding character `=`, the
decoder's tolerance of `\r` and `\n`, its non-strict handling of trailing
bits and its `CorruptInputError` offsets.  Shifts and masks on `uint` are
written as multiplication, division and remainder by powers of two. -/

/-- The bytes of an ASCII text. -/
def ascii (s : String) : GoString := s.toList.map (fun c => Fin.ofNat c.toNat)

namespace StdEncoding

/-- The alphabet `encodeStd`. -/
def encodeStd : List Byte :=
  ascii "ABCDEFGHIJKLMNOPQRSTUVWXYZabcdefghijklmnopqrstuvwxyz0123456789+/"

/-- The padding character `StdPadding`, `=`. -/
def padChar : Byte := 61

/-- The lookup `enc.encode[v & 0x3F]`. -/
def encodeChar (v : Nat) : Byte := encodeStd.getD (v % 64) 0

/-- The table `enc.decodeMap`: the index of `c` in the alphabet, `0xff` for
every other byte. -/
def decodeMap (c : Byte) : Nat :=
  match encodeStd.indexOf? c with
  | some i => i
  | none => 255

/-- The body of `Encoding.Encode`: three source bytes give four characters, a
remainder of one or two bytes gives a padded group. -/
def Encode : List Byte → List Byte
  | a :: b :: c :: rest =>
      let val := a.val * 2 ^ 16 + b.val * 2 ^ 8 + c.val
      encodeChar (val / 2 ^ 18) :: encodeChar (val / 2 ^ 12) ::
        encodeChar (val / 2 ^ 6) :: encodeChar val :: Encode rest
  | [a, b] =>
      let val := a.val * 2 ^ 16 + b.val * 2 ^ 8
      [encodeChar (val / 2 ^ 18), encodeChar (val / 2 ^ 12), encodeChar (val / 2 ^ 6), padChar]
  | [a] =>
      let val := a.val * 2 ^ 16
      [encodeChar (val / 2 ^ 18), encodeChar (val / 2 ^ 12), padChar, padChar]
  | [] => []

/-- EncodeToString returns the base64 encoding of src. -/
def EncodeToString (src : List Byte) : GoString := Encode src

/-- The loop "skip over newlines" of `decodeQuantum`: the rest of the input
and the index reached. -/
def skipNewlines : List Byte → Nat → List Byte × Nat
  | [], si => ([], si)
  | c :: rest, si =>
      if c = 10 ∨ c = 13 then skipNewlines rest (si + 1) else (c :: rest, si)

/-- The end of `decodeQuantum`, "Convert 4x 6bit source bytes into 3 bytes":
of the `dlen` six-bit values collected, `dlen - 1` bytes are written. -/
def quantumBytes (dbuf : List Nat) : List Byte :=
  let val := dbuf.getD 0 0 * 2 ^ 18 + dbuf.getD 1 0 * 2 ^ 12 + dbuf.getD 2 0 * 2 ^ 6
    + dbuf.getD 3 0
  ([Fin.ofNat (val / 2 ^ 16), Fin.ofNat (val / 2 ^ 8), Fin.ofNat val] : List Byte).take
    (dbuf.length - 1)

/-- The tail of a padded quantum: newlines are skipped, anything left is
trailing garbage; the quantum's bytes are written either way. -/
def finishPadded (rest : List Byte) (si : Nat) (dbuf : List Nat) (out : List Byte) :
    List Byte × Option Error :=
  match skipNewlines rest si with
  | ([], _) => (out ++ quantumBytes dbuf, none)
  | (_ :: _, si3) => (out ++ quantumBytes dbuf, some (Error.corruptInput si3))

/-- The loop of `Encoding.Decode` over `decodeQuantum`: `src` is the input
from index `si` on, `dbuf` the six-bit values of the quantum in progress,
`out` the bytes written so far.  The result is `dst[:n]` and the error. -/
def decodeFrom : List Byte → Nat → List Nat → List Byte → List Byte × Option Error
  | [], si, dbuf, out =>
      if dbuf.length = 0 then (out, none)
      else (out, some (Error.corruptInput (si - dbuf.length)))
  | c :: rest, si, dbuf, out =>
      if decodeMap c ≠ 255 then
        if dbuf.length = 3 then
          decodeFrom rest (si + 1) [] (out ++ quantumBytes (dbuf ++ [decodeMap c]))
        else
          decodeFrom rest (si + 1) (dbuf ++ [decodeMap c]) out
      else if c = 10 ∨ c = 13 then
        decodeFrom rest (si + 1) dbuf out
      else if c ≠ padChar then
        (out, some (Error.corruptInput si))
      else if dbuf.length < 2 then
        (out, some (Error.corruptInput si))
      else if dbuf.length = 2 then
        match skipNewlines rest (si + 1) with
        | ([], si1) => (out, some (Error.corruptInput si1))
        | (c2 :: rest2, si1) =>
            if c2 ≠ padChar then (out, some (Error.corruptInput (si1 - 1)))
            else finishPadded rest2 (si1 + 1) dbuf out
      else
        finishPadded rest (si + 1) dbuf out

/-- DecodeString returns the bytes represented by the base64 string s. -/
def DecodeString (s : GoString) : List Byte × Option Error :=
  decodeFrom s 0 [] []

end StdEncoding

/-! ## A model of `strconv.Atoi` (64-bit `int`) -/

namespace strconv

/-- The digit loop of `ParseUint(s, 10, 64)`: a byte that is not a decimal
digit is a syntax error, a value past `1<<64 - 1` a range error. -/
def parseDigits : List Byte → Nat → Except Error Nat
  | [], n => .ok n
  | c :: rest, n =>
      if 48 ≤ c.val ∧ c.val ≤ 57 then
        if n ≥ (2 ^ 64 - 1) / 10 + 1 then .error Error.numRange
        else if n * 10 + (c.val - 48) > 2 ^ 64 - 1 then .error Error.numRange
        else parseDigits rest (n * 10 + (c.val - 48))
      else .error Error.numSyntax

/-- Atoi is equivalent to ParseInt(s, 10, 0), converted to type int: an
optional sign, at least one decimal digit, a value in the range of `int`. -/
def Atoi (s : GoString) : Int × Option Error :=
  let neg := decide (s.head? = some 45)
  let digits := if s.head? = some 45 ∨ s.head? = some 43 then s.tail else s
  if digits = [] then (0, some Error.numSyntax)
  else
    match parseDigits digits 0 with
    | .error Error.numRange =>
        if neg then (-(2 ^ 63 : Int), some Error.numRange)
        else ((2 ^ 63 - 1 : Int), some Error.numRange)
    | .error e => (0, some e)
    | .ok un =>
        if !neg && decide (un ≥ 2 ^ 63) then ((2 ^ 63 - 1 : Int), some Error.numRange)
        else if neg && decide (un > 2 ^ 63) then (-(2 ^ 63 : Int), some Error.numRange)
        else if neg then (-(un : Int), none)
        else ((un : Int), none)

end strconv

/-- The byte sequence with one bit flipped: bit `i % 8` of byte `i / 8`. -/
def flipBit : List Byte → Nat → List Byte
  | [], _ => []
  | b :: bs, i =>
      if i < 8 then (Fin.ofNat (b.val ^^^ 2 ^ i) : Byte) :: bs
      else b :: flipBit bs (i - 8)

/-! ## Stated assumptions on the primitives

The laws of `secretbox` and `box` that the theorems below take as
hypotheses; each is the documented behaviour of the package. -/

/-- The call `Seal out m ..` appends the box to `out`, and the box does not
depend on `out`. -/
def Secretbox.SealAppends (S : Secretbox) : Prop :=
  ∀ out m n k, S.Seal out m n k = out ++ S.Seal [] m n k

/-- The box is `Overhead` bytes longer than the message. -/
def Secretbox.SealOverhead (S : Secretbox) : Prop :=
  ∀ m n k, (S.Seal [] m n k).length = m.length + Overhead

/-- The call `Open` undoes `Seal` for equal nonce and key. -/
def Secretbox.OpenUndoesSeal (S : Secretbox) : Prop :=
  ∀ m n k, S.Open [] (S.Seal [] m n k) n k = (m, true)

/-- The call `Seal out m ..` appends the box to `out`, and the box does not
depend on `out`. -/
def Box.SealAppends (B : Box) : Prop :=
  ∀ out m n pub priv, B.Seal out m n pub priv = out ++ B.Seal [] m n pub priv

/-- The box is `Overhead` bytes longer than the message. -/
def Box.SealOverhead (B : Box) : Prop :=
  ∀ m n pub priv, (B.Seal [] m n pub priv).length = m.length + Overhead

/-- For the key pairs `(pubA, privA)` and `(pubB, privB)`: what A seals for B
(under `pubB`, `privA`) B opens (under `pubA`, `privB`), that is, both sides
derive the same shared key and `Open` undoes `Seal` under it. -/
def Box.OpenUndoesSeal (B : Box) (pubA privA pubB privB : Key) : Prop :=
  ∀ m n, B.Open [] (B.Seal [] m n pubB privA) n pubA privB = (m, true)

/-- The primitive rejects every single-bit modification of the box it seals
for message `m` under nonce `n` and key `k`. -/
def Secretbox.RejectsBitFlips (S : Secretbox) (m : List Byte) (n : Nonce) (k : Key) : Prop :=
  ∀ i, i < 8 * (S.Seal [] m n k).length →
    (S.Open [] (flipBit (S.Seal [] m n k) i) n k).2 = false

/-- The primitive rejects, under `(pubA, privB)`, every single-bit
modification of the box it seals for message `m` under nonce `n` and
`(pubB, privA)`. -/
def Box.RejectsBitFlips (B : Box) (m : List Byte) (n : Nonce)
    (pubA privA pubB privB : Key) : Prop :=
  ∀ i, i < 8 * (B.Seal [] m n pubB privA).length →
    (B.Open [] (flipBit (B.Seal [] m n pubB privA) i) n pubA privB).2 = false

/-! ## A small instance of the primitives

An executable instance of the two interfaces on which the theorems are
exhibited at concrete inputs: the tag is a checksum of message, nonce and
key, the message travels in the clear, and a public key is its private key. -/

namespace Toy

/-- The sum of the bytes, modulo 256. -/
def checksum (l : List Byte) : Byte := l.foldl (fun acc b => acc + b) 0

/-- The tag of a message under a nonce and a key. -/
def tag (m : List Byte) (n : Nonce) (k : Key) : List Byte :=
  List.replicate Overhead (checksum (m ++ n.val ++ k.val))

/-- The instance of `secretbox`. -/
def secretbox : Secretbox where
  Seal out m n k := out ++ (tag m n k ++ m)
  Open out box n k :=
    if Overhead ≤ box.length ∧ box.take Overhead = tag (box.drop Overhead) n k then
      (out ++ box.drop Overhead, true)
    else ([], false)

/-- The key agreement: the bytewise sum of the two keys. -/
def shared (pub priv : Key) : Key :=
  ⟨List.zipWith (fun a b => a + b) pub.val priv.val, by
    have h1 := pub.property
    have h2 := priv.property
    simp only [List.length_zipWith]
    omega⟩

/-- The instance of `box`: `secretbox` under the agreed key. -/
def box : Box where
  Seal out m n pub priv := secretbox.Seal out m n (shared pub priv)
  Open out b n pub priv := secretbox.Open out b n (shared pub priv)

/-- A `secretbox` whose `Open` hands back bytes together with a failure. -/
def leaky : Secretbox where
  Seal out m _ _ := out ++ m
  Open out bx _ _ := (out ++ bx, false)

/-- A key with all bytes equal. -/
def constKey (b : Byte) : Key := ⟨List.replicate KeySize b, List.length_replicate KeySize b⟩

/-- The key with bytes `0, 1, ..., 31`. -/
def countKey : Key :=
  ⟨List.map (fun i => Fin.ofNat i) (List.range KeySize), by simp⟩

/-- A nonce with all bytes equal. -/
def constNonce (b : Byte) : Nonce :=
  ⟨List.replicate NonceSize b, List.length_replicate NonceSize b⟩

end Toy


/-! ## Auxiliary facts about the embedding -/

theorem copy_eq_take (dst src : List Byte) (h : dst.length ≤ src.length) :
    copy dst src = src.take dst.length := by
  unfold copy
  rw [List.drop_eq_nil_of_le h, List.append_nil]

theorem copy_eq_self (dst src : List Byte) (h : dst.length = src.length) :
    copy dst src = src := by
  rw [copy_eq_take dst src (Nat.le_of_eq h), h, List.take_length]

theorem copy_short (dst src : List Byte) (h : src.length ≤ dst.length) :
    copy dst src = src ++ dst.drop src.length := by
  unfold copy
  rw [List.take_of_length_le h]

theorem zero_copyFrom_array (n : Nonce) :
    (ByteArr.zero NonceSize).copyFrom n.val = n := by
  apply Subtype.ext
  show copy (ByteArr.zero NonceSize).val n.val = n.val
  exact copy_eq_self _ _ (by rw [(ByteArr.zero NonceSize).property, n.property])

theorem zero_copyFrom_take (buf : List Byte) (h : NonceSize ≤ buf.length) :
    ((ByteArr.zero NonceSize).copyFrom (buf.take NonceSize)).val = buf.take NonceSize := by
  show copy (ByteArr.zero NonceSize).val (buf.take NonceSize) = buf.take NonceSize
  apply copy_eq_self
  rw [(ByteArr.zero NonceSize).property, List.length_take]
  omega

theorem EncryptBytes_eq (S : Secretbox) (rd : ReadResult) (p : List Byte) (key : Key) :
    EncryptBytes S rd p key =
      (S.Seal (ReadFull rd (ByteArr.zero NonceSize)).val p
        (ReadFull rd (ByteArr.zero NonceSize)) key, none) := by
  unfold EncryptBytes
  simp only
  rw [copy_eq_self]
  rw [List.length_replicate, (ReadFull rd (ByteArr.zero NonceSize)).property]

theorem OpenSealedBytes_of_le (B : Box) (buf : List Byte) (pub priv : Key)
    (h : NonceSize ≤ buf.length) :
    OpenSealedBytes B buf pub priv =
      .ok (if (B.Open [] (buf.drop NonceSize)
                ((ByteArr.zero NonceSize).copyFrom (buf.take NonceSize)) pub priv).2 = false
           then ([], some ErrCantOpenSealedBytes)
           else ((B.Open [] (buf.drop NonceSize)
                ((ByteArr.zero NonceSize).copyFrom (buf.take NonceSize)) pub priv).1, none)) := by
  have hz : (ByteArr.zero NonceSize).val.length = NonceSize := (ByteArr.zero NonceSize).property
  unfold OpenSealedBytes
  simp only [Assert, sliceTo, sliceFrom, hz, ge_iff_le, h, decide_True, if_true, Fail,
    bind, Except.bind, pure, Except.pure]
  cases hb : (B.Open [] (buf.drop NonceSize)
      ((ByteArr.zero NonceSize).copyFrom (buf.take NonceSize)) pub priv).2 <;> simp [hb]

theorem DecryptBytes_of_le (S : Secretbox) (inp : List Byte) (key : Key)
    (h : NonceSize ≤ inp.length) :
    DecryptBytes S inp key =
      .ok (if (S.Open [] (inp.drop NonceSize)
                ((ByteArr.zero NonceSize).copyFrom (inp.take NonceSize)) key).2 = false
           then ([], some ErrCantDecryptBytes)
           else ((S.Open [] (inp.drop NonceSize)
                ((ByteArr.zero NonceSize).copyFrom (inp.take NonceSize)) key).1, none)) := by
  unfold DecryptBytes
  simp only [Assert, sliceTo, sliceFrom, ge_iff_le, h, decide_True, if_true, Fail,
    bind, Except.bind, pure, Except.pure]
  cases hb : (S.Open [] (inp.drop NonceSize)
      ((ByteArr.zero NonceSize).copyFrom (inp.take NonceSize)) key).2 <;> simp [hb]

theorem OpenSealedBytes_of_lt (B : Box) (buf : List Byte) (pub priv : Key)
    (h : buf.length < NonceSize) :
    OpenSealedBytes B buf pub priv = .error Panic.assertion := by
  have hz : (ByteArr.zero NonceSize).val.length = NonceSize := (ByteArr.zero NonceSize).property
  have h2 : ¬ NonceSize ≤ buf.length := Nat.not_le.mpr h
  unfold OpenSealedBytes
  simp only [Assert, hz, ge_iff_le, h2, decide_False, bind, Except.bind]
  rfl

theorem DecryptBytes_of_lt (S : Secretbox) (inp : List Byte) (key : Key)
    (h : inp.length < NonceSize) :
    DecryptBytes S inp key = .error Panic.assertion := by
  have h2 : ¬ NonceSize ≤ inp.length := Nat.not_le.mpr h
  unfold DecryptBytes
  simp only [Assert, ge_iff_le, h2, decide_False, bind, Except.bind]
  rfl

/-- Opening a buffer that is a nonce followed by a box hands exactly that
nonce and that box to `box.Open`. -/
theorem OpenSealedBytes_append (B : Box) (n : Nonce) (bx : List Byte) (pub priv : Key) :
    OpenSealedBytes B (n.val ++ bx) pub priv =
      .ok (if (B.Open [] bx n pub priv).2 = false then ([], some ErrCantOpenSealedBytes)
           else ((B.Open [] bx n pub priv).1, none)) := by
  have hn : n.val.length = NonceSize := n.property
  have hle : NonceSize ≤ (n.val ++ bx).length := by
    rw [List.length_append]; omega
  rw [OpenSealedBytes_of_le B _ pub priv hle, List.take_left' hn, List.drop_left' hn,
    zero_copyFrom_array]

theorem DecryptBytes_append (S : Secretbox) (n : Nonce) (bx : List Byte) (key : Key) :
    DecryptBytes S (n.val ++ bx) key =
      .ok (if (S.Open [] bx n key).2 = false then ([], some ErrCantDecryptBytes)
           else ((S.Open [] bx n key).1, none)) := by
  have hn : n.val.length = NonceSize := n.property
  have hle : NonceSize ≤ (n.val ++ bx).length := by
    rw [List.length_append]; omega
  rw [DecryptBytes_of_le S _ key hle, List.take_left' hn, List.drop_left' hn,
    zero_copyFrom_array]


/-! ## The small instance meets the stated assumptions -/

theorem Toy.tag_length (m : List Byte) (n : Nonce) (k : Key) :
    (Toy.tag m n k).length = Overhead := by
  simp [Toy.tag]

theorem Toy.secretbox_sealAppends : Toy.secretbox.SealAppends := by
  intro out m n k
  simp [Toy.secretbox]

theorem Toy.secretbox_sealOverhead : Toy.secretbox.SealOverhead := by
  intro m n k
  simp [Toy.secretbox, Toy.tag_length, Nat.add_comm]

theorem Toy.secretbox_openUndoesSeal : Toy.secretbox.OpenUndoesSeal := by
  intro m n k
  have ht := Toy.tag_length m n k
  simp only [Toy.secretbox, List.nil_append, List.take_left' ht, List.drop_left' ht,
    List.length_append, ht]
  simp

theorem Toy.box_sealAppends : Toy.box.SealAppends := by
  intro out m n pub priv
  simp [Toy.box, Toy.secretbox]

theorem Toy.box_sealOverhead : Toy.box.SealOverhead := by
  intro m n pub priv
  simp [Toy.box, Toy.secretbox, Toy.tag_length, Nat.add_comm]

theorem Toy.box_openUndoesSeal (pubA privA pubB privB : Key)
    (h : Toy.shared pubB privA = Toy.shared pubA privB) :
    Toy.box.OpenUndoesSeal pubA privA pubB privB := by
  intro m n
  show Toy.secretbox.Open [] (Toy.secretbox.Seal [] m n (Toy.shared pubB privA)) n
    (Toy.shared pubA privB) = (m, true)
  rw [h]
  exact Toy.secretbox_openUndoesSeal m n _

/-! ## Round trips, failure handling and wire layout of `crypto.go` -/

/-- C1. Symmetric round trip: if `secretbox.Seal` appends to its output buffer
and `secretbox.Open` undoes `secretbox.Seal` for equal nonce and key, then for
every plaintext `p` (the empty one included), every key `k` and whatever the
random source delivered for the nonce, `EncryptBytes` returns a nil error and
`DecryptBytes` of its output under `k` returns `p` and a nil error. -/
theorem decrypt_encrypt_roundtrip (S : Secretbox) (happ : S.SealAppends)
    (hopen : S.OpenUndoesSeal) (rd : ReadResult) (p : List Byte) (k : Key) :
    (EncryptBytes S rd p k).2 = none ∧
      DecryptBytes S (EncryptBytes S rd p k).1 k = .ok (p, none) := by
  rw [EncryptBytes_eq]
  refine ⟨rfl, ?_⟩
  simp only
  rw [happ, DecryptBytes_append, hopen]
  simp

/-- Witness of C1 on the small instance: the plaintext `hi`, an all-ones key
and the nonce `7 7 ... 7`. -/
theorem decrypt_encrypt_roundtrip_witness :
    Toy.secretbox.SealAppends ∧ Toy.secretbox.OpenUndoesSeal ∧
      DecryptBytes Toy.secretbox
        (EncryptBytes Toy.secretbox ⟨(Toy.constNonce 7).val, none⟩ (ascii "hi")
          (Toy.constKey 1)).1 (Toy.constKey 1) = .ok (ascii "hi", none) :=
  ⟨Toy.secretbox_sealAppends, Toy.secretbox_openUndoesSeal,
    (decrypt_encrypt_roundtrip Toy.secretbox Toy.secretbox_sealAppends
      Toy.secretbox_openUndoesSeal ⟨(Toy.constNonce 7).val, none⟩ (ascii "hi")
      (Toy.constKey 1)).2⟩

/-- C2. Asymmetric round trip: if `box.Seal` appends to its output buffer and,
for the key pairs A = `(pubA, privA)` and B = `(pubB, privB)`, `box.Open` under
`(pubA, privB)` undoes `box.Seal` under `(pubB, privA)` (both derive the same
shared key), then for every plaintext `p` (the empty one included) and
whatever the random source delivered for the nonce, `SealBytes p pubB privA`
returns a nil error and `OpenSealedBytes` of its output under `pubA`, `privB`
returns `p` and a nil error. -/
theorem open_seal_roundtrip (B : Box) (pubA privA pubB privB : Key)
    (happ : B.SealAppends) (hopen : B.OpenUndoesSeal pubA privA pubB privB)
    (rd : ReadResult) (p : List Byte) :
    (SealBytes B rd p pubB privA).2 = none ∧
      OpenSealedBytes B (SealBytes B rd p pubB privA).1 pubA privB = .ok (p, none) := by
  refine ⟨rfl, ?_⟩
  show OpenSealedBytes B (B.Seal (ReadFull rd (ByteArr.zero NonceSize)).val p
    (ReadFull rd (ByteArr.zero NonceSize)) pubB privA) pubA privB = .ok (p, none)
  rw [happ, OpenSealedBytes_append, hopen]
  simp

/-- Witness of C2 on the small instance: A has the key `1 1 ... 1`, B the key
`2 2 ... 2`, the plaintext is `hello`. -/
theorem open_seal_roundtrip_witness :
    Toy.box.SealAppends ∧
      Toy.box.OpenUndoesSeal (Toy.constKey 1) (Toy.constKey 1) (Toy.constKey 2)
        (Toy.constKey 2) ∧
      OpenSealedBytes Toy.box
        (SealBytes Toy.box ⟨(Toy.constNonce 9).val, none⟩ (ascii "hello") (Toy.constKey 2)
          (Toy.constKey 1)).1 (Toy.constKey 1) (Toy.constKey 2) = .ok (ascii "hello", none) :=
  ⟨Toy.box_sealAppends, Toy.box_openUndoesSeal _ _ _ _ (by decide),
    (open_seal_roundtrip Toy.box (Toy.constKey 1) (Toy.constKey 1) (Toy.constKey 2)
      (Toy.constKey 2) Toy.box_sealAppends (Toy.box_openUndoesSeal _ _ _ _ (by decide))
      ⟨(Toy.constNonce 9).val, none⟩ (ascii "hello")).2⟩


/-- C3. Fail-closed, no partial output: for every input `buf` of at least 24
bytes and all keys, with `nonce` the array holding `buf[0:24]`,
`OpenSealedBytes` (resp. `DecryptBytes`) returns, when `box.Open` (resp.
`secretbox.Open`) of `buf[24:]` under `nonce` reports failure, no bytes at all
and the error `ErrCantOpenSealedBytes` (resp. `ErrCantDecryptBytes`), whatever
bytes the primitive handed back; and when it reports success, exactly the
bytes the primitive returned and a nil error.  So the error is non-nil exactly
when the verification fails. -/
theorem open_decrypt_fail_closed (B : Box) (S : Secretbox) (buf : List Byte)
    (pub priv key : Key) (hlen : NonceSize ≤ buf.length) :
    ∃ nonce : Nonce, nonce.val = buf.take NonceSize ∧
      ((B.Open [] (buf.drop NonceSize) nonce pub priv).2 = false →
        OpenSealedBytes B buf pub priv = .ok ([], some ErrCantOpenSealedBytes)) ∧
      ((B.Open [] (buf.drop NonceSize) nonce pub priv).2 = true →
        OpenSealedBytes B buf pub priv =
          .ok ((B.Open [] (buf.drop NonceSize) nonce pub priv).1, none)) ∧
      ((S.Open [] (buf.drop NonceSize) nonce key).2 = false →
        DecryptBytes S buf key = .ok ([], some ErrCantDecryptBytes)) ∧
      ((S.Open [] (buf.drop NonceSize) nonce key).2 = true →
        DecryptBytes S buf key = .ok ((S.Open [] (buf.drop NonceSize) nonce key).1, none)) := by
  refine ⟨(ByteArr.zero NonceSize).copyFrom (buf.take NonceSize),
    zero_copyFrom_take buf hlen, ?_, ?_, ?_, ?_⟩
  · intro h
    rw [OpenSealedBytes_of_le B buf pub priv hlen, if_pos h]
  · intro h
    rw [OpenSealedBytes_of_le B buf pub priv hlen, if_neg (by simp [h])]
  · intro h
    rw [DecryptBytes_of_le S buf key hlen, if_pos h]
  · intro h
    rw [DecryptBytes_of_le S buf key hlen, if_neg (by simp [h])]

/-- Witness of C3: on a 26-byte input the small `box` rejects, and a
`secretbox` that hands back bytes with its failure has them discarded. -/
theorem open_decrypt_fail_closed_witness :
    OpenSealedBytes Toy.box ((Toy.constNonce 3).val ++ ascii "no") (Toy.constKey 1)
        (Toy.constKey 2) = .ok ([], some ErrCantOpenSealedBytes) ∧
      DecryptBytes Toy.leaky ((Toy.constNonce 3).val ++ ascii "no") (Toy.constKey 1)
        = .ok ([], some ErrCantDecryptBytes) := by
  obtain ⟨nonce, hn, h1, _, h3, _⟩ :=
    open_decrypt_fail_closed Toy.box Toy.leaky ((Toy.constNonce 3).val ++ ascii "no")
      (Toy.constKey 1) (Toy.constKey 2) (Toy.constKey 1) (by decide)
  have hnonce : nonce = Toy.constNonce 3 := Subtype.ext (by rw [hn]; decide)
  subst hnonce
  exact ⟨h1 (by decide), h3 (by decide)⟩


theorem flipBit_append (pre rest : List Byte) (i : Nat) :
    flipBit (pre ++ rest) (8 * pre.length + i) = pre ++ flipBit rest i := by
  induction pre with
  | nil => simp
  | cons b bs ih =>
    have h1 : ¬ (8 * (bs.length + 1) + i < 8) := by omega
    have h2 : 8 * (bs.length + 1) + i - 8 = 8 * bs.length + i := by omega
    simp only [List.cons_append, List.length_cons, flipBit, h1, if_false, h2, List.append_eq, ih]

theorem flipBit_length (l : List Byte) (i : Nat) : (flipBit l i).length = l.length := by
  induction l generalizing i with
  | nil => rfl
  | cons b bs ih =>
    unfold flipBit
    split
    · rfl
    · simp [ih]

theorem flipBit_byte_ne (b : Byte) (k : Fin 8) : (Fin.ofNat (b.val ^^^ 2 ^ k.val) : Byte) ≠ b := by
  revert b k
  set_option maxRecDepth 100000 in decide

/-- Flipping a bit inside the sequence changes it. -/
theorem flipBit_ne (l : List Byte) (i : Nat) (h : i < 8 * l.length) : flipBit l i ≠ l := by
  induction l generalizing i with
  | nil => simp at h
  | cons b bs ih =>
    unfold flipBit
    split
    · rename_i hi
      intro heq
      exact flipBit_byte_ne b ⟨i, hi⟩ (List.cons.inj heq).1
    · intro heq
      have hlen : i - 8 < 8 * bs.length := by
        simp only [List.length_cons] at h
        omega
      exact ih (i - 8) hlen (List.cons.inj heq).2

/-- C6. Wire layout: if `Seal` of `secretbox` and of `box` appends to its
output buffer a box 16 bytes longer than the message, then for every
plaintext `p`, all keys and every drawn nonce `n`, the output of
`EncryptBytes` and of `SealBytes` is `n` followed by what the underlying
`Seal` produces for `p`, `n` and the keys on an empty output buffer: its
first 24 bytes are `n`, the remainder is that box, and its length is
`len(p) + 24 + 16`. -/
theorem wire_layout (S : Secretbox) (B : Box) (hS : S.SealAppends) (hSo : S.SealOverhead)
    (hB : B.SealAppends) (hBo : B.SealOverhead) (n : Nonce) (err : Option Error)
    (p : List Byte) (key pub priv : Key) :
    ((EncryptBytes S ⟨n.val, err⟩ p key).1 = n.val ++ S.Seal [] p n key ∧
      (EncryptBytes S ⟨n.val, err⟩ p key).1.take 24 = n.val ∧
      (EncryptBytes S ⟨n.val, err⟩ p key).1.drop 24 = S.Seal [] p n key ∧
      (EncryptBytes S ⟨n.val, err⟩ p key).1.length = p.length + 24 + 16) ∧
    ((SealBytes B ⟨n.val, err⟩ p pub priv).1 = n.val ++ B.Seal [] p n pub priv ∧
      (SealBytes B ⟨n.val, err⟩ p pub priv).1.take 24 = n.val ∧
      (SealBytes B ⟨n.val, err⟩ p pub priv).1.drop 24 = B.Seal [] p n pub priv ∧
      (SealBytes B ⟨n.val, err⟩ p pub priv).1.length = p.length + 24 + 16) := by
  have hn : n.val.length = 24 := n.property
  have hr : ReadFull ⟨n.val, err⟩ (ByteArr.zero NonceSize) = n := zero_copyFrom_array n
  have he : (EncryptBytes S ⟨n.val, err⟩ p key).1 = n.val ++ S.Seal [] p n key := by
    rw [EncryptBytes_eq, hr]
    exact hS _ _ _ _
  have hs : (SealBytes B ⟨n.val, err⟩ p pub priv).1 = n.val ++ B.Seal [] p n pub priv := by
    show B.Seal (ReadFull ⟨n.val, err⟩ (ByteArr.zero NonceSize)).val p
      (ReadFull ⟨n.val, err⟩ (ByteArr.zero NonceSize)) pub priv = _
    rw [hr]
    exact hB _ _ _ _ _
  have hlS := hSo p n key
  have hlB := hBo p n pub priv
  unfold Overhead at hlS hlB
  refine ⟨⟨he, ?_, ?_, ?_⟩, ⟨hs, ?_, ?_, ?_⟩⟩
  · rw [he, List.take_left' hn]
  · rw [he, List.drop_left' hn]
  · rw [he, List.length_append, hn, hlS]; omega
  · rw [hs, List.take_left' hn]
  · rw [hs, List.drop_left' hn]
  · rw [hs, List.length_append, hn, hlB]; omega

/-- Witness of C6 on the small instance: the plaintext `hi` (2 bytes) under the
nonce `7 7 ... 7`; both outputs have 2 + 24 + 16 = 42 bytes. -/
theorem wire_layout_witness :
    (EncryptBytes Toy.secretbox ⟨(Toy.constNonce 7).val, none⟩ (ascii "hi")
        (Toy.constKey 1)).1.take 24 = (Toy.constNonce 7).val ∧
      (EncryptBytes Toy.secretbox ⟨(Toy.constNonce 7).val, none⟩ (ascii "hi")
        (Toy.constKey 1)).1.length = 42 ∧
      (SealBytes Toy.box ⟨(Toy.constNonce 7).val, none⟩ (ascii "hi") (Toy.constKey 2)
        (Toy.constKey 1)).1.length = 42 :=
  have h := wire_layout Toy.secretbox Toy.box Toy.secretbox_sealAppends
    Toy.secretbox_sealOverhead Toy.box_sealAppends Toy.box_sealOverhead (Toy.constNonce 7)
    none (ascii "hi") (Toy.constKey 1) (Toy.constKey 2) (Toy.constKey 1)
  ⟨h.1.2.1, h.1.2.2.2, h.2.2.2.2⟩

/-- C7. Minimum-length guard: for every input shorter than 24 bytes (the empty
one included) and all keys, `OpenSealedBytes` and `DecryptBytes` stop at the
length assertion with the precondition violation: they do not reach the
slice expressions `buf[:24]` and `buf[24:]` (whose failure would be
`Panic.sliceBounds`) and return no plaintext. -/
theorem short_input_rejected (B : Box) (S : Secretbox) (buf : List Byte)
    (pub priv key : Key) (hlen : buf.length < NonceSize) :
    OpenSealedBytes B buf pub priv = .error Panic.assertion ∧
      DecryptBytes S buf key = .error Panic.assertion :=
  ⟨OpenSealedBytes_of_lt B buf pub priv hlen, DecryptBytes_of_lt S buf key hlen⟩

/-- Witness of C7: the empty buffer. -/
theorem short_input_rejected_witness :
    OpenSealedBytes Toy.box [] (Toy.constKey 1) (Toy.constKey 2) = .error Panic.assertion ∧
      DecryptBytes Toy.secretbox [] (Toy.constKey 1) = .error Panic.assertion :=
  short_input_rejected Toy.box Toy.secretbox [] (Toy.constKey 1) (Toy.constKey 2)
    (Toy.constKey 1) (by decide)

/-- C8. Tamper detection: let `Seal` append to its output buffer, and let the
primitive reject every single-bit modification of the box it seals for `p`
under the nonce `n` and the keys (the authenticator does its work).  Then for
every bit position `i` in the ciphertext region (bytes `[24:]`) of the output
of `EncryptBytes` / `SealBytes`, flipping bit `i` makes `DecryptBytes` /
`OpenSealedBytes` (with the otherwise correct keys) return the error
`ErrCantDecryptBytes` / `ErrCantOpenSealedBytes` and no bytes at all. -/
theorem tamper_detected (S : Secretbox) (B : Box) (hS : S.SealAppends) (hB : B.SealAppends)
    (n : Nonce) (err : Option Error) (p : List Byte) (key pubA privA pubB privB : Key) :
    (S.RejectsBitFlips p n key →
      ∀ i, 8 * 24 ≤ i → i < 8 * (EncryptBytes S ⟨n.val, err⟩ p key).1.length →
        DecryptBytes S (flipBit (EncryptBytes S ⟨n.val, err⟩ p key).1 i) key =
          .ok ([], some ErrCantDecryptBytes)) ∧
    (B.RejectsBitFlips p n pubA privA pubB privB →
      ∀ i, 8 * 24 ≤ i → i < 8 * (SealBytes B ⟨n.val, err⟩ p pubB privA).1.length →
        OpenSealedBytes B (flipBit (SealBytes B ⟨n.val, err⟩ p pubB privA).1 i) pubA privB =
          .ok ([], some ErrCantOpenSealedBytes)) := by
  have hn : n.val.length = 24 := n.property
  have hr : ReadFull ⟨n.val, err⟩ (ByteArr.zero NonceSize) = n := zero_copyFrom_array n
  have he : (EncryptBytes S ⟨n.val, err⟩ p key).1 = n.val ++ S.Seal [] p n key := by
    rw [EncryptBytes_eq, hr]
    exact hS _ _ _ _
  have hs : (SealBytes B ⟨n.val, err⟩ p pubB privA).1 = n.val ++ B.Seal [] p n pubB privA := by
    show B.Seal (ReadFull ⟨n.val, err⟩ (ByteArr.zero NonceSize)).val p
      (ReadFull ⟨n.val, err⟩ (ByteArr.zero NonceSize)) pubB privA = _
    rw [hr]
    exact hB _ _ _ _ _
  constructor
  · intro hrej i hlo hhi
    rw [he] at hhi ⊢
    rw [List.length_append, hn] at hhi
    obtain ⟨j, rfl⟩ : ∃ j, i = 8 * n.val.length + j := ⟨i - 8 * 24, by rw [hn]; omega⟩
    rw [flipBit_append, DecryptBytes_append, if_pos (hrej j (by rw [hn] at hhi; omega))]
  · intro hrej i hlo hhi
    rw [hs] at hhi ⊢
    rw [List.length_append, hn] at hhi
    obtain ⟨j, rfl⟩ : ∃ j, i = 8 * n.val.length + j := ⟨i - 8 * 24, by rw [hn]; omega⟩
    rw [flipBit_append, OpenSealedBytes_append, if_pos (hrej j (by rw [hn] at hhi; omega))]

/-- Witness of C8 on the small instance, whose `Open` both undoes `Seal` and
rejects the modified boxes: the plaintext `hi` under the nonce `7 7 ... 7`;
bit 200 is the lowest bit of the second byte of the tag. -/
theorem tamper_detected_witness :
    Toy.secretbox.OpenUndoesSeal ∧
      Toy.secretbox.RejectsBitFlips (ascii "hi") (Toy.constNonce 7) (Toy.constKey 1) ∧
      DecryptBytes Toy.secretbox
        (flipBit (EncryptBytes Toy.secretbox ⟨(Toy.constNonce 7).val, none⟩ (ascii "hi")
          (Toy.constKey 1)).1 200) (Toy.constKey 1) = .ok ([], some ErrCantDecryptBytes) :=
  have hrej : Toy.secretbox.RejectsBitFlips (ascii "hi") (Toy.constNonce 7)
      (Toy.constKey 1) := by
    unfold Secretbox.RejectsBitFlips
    set_option maxRecDepth 100000 in decide
  ⟨Toy.secretbox_openUndoesSeal, hrej, (tamper_detected Toy.secretbox Toy.box Toy.secretbox_sealAppends Toy.box_sealAppends
    (Toy.constNonce 7) none (ascii "hi") (Toy.constKey 1) (Toy.constKey 1) (Toy.constKey 1)
    (Toy.constKey 2) (Toy.constKey 2)).1 hrej 200 (by decide) (by decide)⟩


theorem ReadFull_short (rd : ReadResult) (h : rd.delivered.length ≤ NonceSize) :
    (ReadFull rd (ByteArr.zero NonceSize)).val =
      rd.delivered ++ List.replicate (NonceSize - rd.delivered.length) 0 := by
  show copy (List.replicate NonceSize 0) rd.delivered = _
  rw [copy_short _ _ (by rw [List.length_replicate]; exact h), List.drop_replicate]

theorem ReadFull_nothing (rd : ReadResult) (h : rd.delivered = []) :
    ReadFull rd (ByteArr.zero NonceSize) = ByteArr.zero NonceSize := by
  apply Subtype.ext
  rw [ReadFull_short rd (by rw [h]; exact Nat.zero_le _), h]
  rfl

/-- C10. The result of reading the random source is ignored in `SealBytes` and
`EncryptBytes`: both return a nil error whatever the read returned; when the
read delivered at most 24 bytes (in particular none) the nonce `n` handed to
`Seal`, both as nonce and as the start of the output buffer (so the output
begins with it when `Seal` appends), is the delivered bytes followed by zeros;
and when the read delivered nothing the nonce is all zero and any two calls
with the same plaintext and keys return identical results. -/
theorem random_read_ignored (S : Secretbox) (B : Box) (rd : ReadResult) (p : List Byte)
    (key pub priv : Key) :
    (EncryptBytes S rd p key).2 = none ∧ (SealBytes B rd p pub priv).2 = none ∧
    (rd.delivered.length ≤ NonceSize →
      ∃ n : Nonce,
        n.val = rd.delivered ++ List.replicate (NonceSize - rd.delivered.length) 0 ∧
        (EncryptBytes S rd p key).1 = S.Seal n.val p n key ∧
        (SealBytes B rd p pub priv).1 = B.Seal n.val p n pub priv ∧
        (S.SealAppends → (EncryptBytes S rd p key).1.take NonceSize = n.val) ∧
        (B.SealAppends → (SealBytes B rd p pub priv).1.take NonceSize = n.val)) ∧
    (rd.delivered = [] →
      (EncryptBytes S rd p key).1 =
        S.Seal (List.replicate NonceSize 0) p (ByteArr.zero NonceSize) key ∧
      (SealBytes B rd p pub priv).1 =
        B.Seal (List.replicate NonceSize 0) p (ByteArr.zero NonceSize) pub priv ∧
      ∀ rd2 : ReadResult, rd2.delivered = [] →
        EncryptBytes S rd2 p key = EncryptBytes S rd p key ∧
        SealBytes B rd2 p pub priv = SealBytes B rd p pub priv) := by
  have hs : ∀ r : ReadResult, SealBytes B r p pub priv =
      (B.Seal (ReadFull r (ByteArr.zero NonceSize)).val p
        (ReadFull r (ByteArr.zero NonceSize)) pub priv, none) := fun _ => rfl
  refine ⟨by rw [EncryptBytes_eq], rfl, ?_, ?_⟩
  · intro hlen
    have hn : (ReadFull rd (ByteArr.zero NonceSize)).val.length = NonceSize :=
      (ReadFull rd (ByteArr.zero NonceSize)).property
    refine ⟨ReadFull rd (ByteArr.zero NonceSize), ReadFull_short rd hlen,
      by rw [EncryptBytes_eq], by rw [hs], ?_, ?_⟩
    · intro hS
      rw [EncryptBytes_eq]
      simp only
      rw [hS, List.take_left' hn]
    · intro hB
      rw [hs]
      simp only
      rw [hB, List.take_left' hn]
  · intro hnil
    refine ⟨?_, ?_, ?_⟩
    · rw [EncryptBytes_eq, ReadFull_nothing rd hnil]; rfl
    · rw [hs, ReadFull_nothing rd hnil]; rfl
    · intro rd2 h2
      rw [EncryptBytes_eq, EncryptBytes_eq, hs, hs, ReadFull_nothing rd hnil,
        ReadFull_nothing rd2 h2]
      exact ⟨rfl, rfl⟩

/-- Witness of C10 on the small instance: a read that delivers nothing and
fails; the output of `EncryptBytes` starts with 24 zero bytes and the error
is nil. -/
theorem random_read_ignored_witness :
    (EncryptBytes Toy.secretbox ⟨[], some (Error.readError "unexpected EOF")⟩ (ascii "hi")
        (Toy.constKey 1)).2 = none ∧
      (EncryptBytes Toy.secretbox ⟨[], some (Error.readError "unexpected EOF")⟩ (ascii "hi")
        (Toy.constKey 1)).1.take NonceSize = List.replicate NonceSize 0 ∧
      EncryptBytes Toy.secretbox ⟨[], none⟩ (ascii "hi") (Toy.constKey 1) =
        EncryptBytes Toy.secretbox ⟨[], some (Error.readError "unexpected EOF")⟩ (ascii "hi")
          (Toy.constKey 1) := by
  have h := random_read_ignored Toy.secretbox Toy.box
    ⟨[], some (Error.readError "unexpected EOF")⟩ (ascii "hi") (Toy.constKey 1)
    (Toy.constKey 2) (Toy.constKey 1)
  obtain ⟨n, hn, _, _, hpre, _⟩ := h.2.2.1 (by decide)
  refine ⟨h.1, ?_, (h.2.2.2 rfl).2.2 ⟨[], none⟩ rfl |>.1⟩
  rw [hpre Toy.secretbox_sealAppends, hn]
  rfl

/-- C5. Key decoding errors: whatever the decoder, `CryptoKeyFromBase64`
succeeds (nil error, equivalently non-nil key) if and only if the decoder
accepts the text and the decoding has exactly 32 bytes, and the key then
holds these bytes; if the decoder returns an error it returns a nil key and
that error, whatever the length of the bytes decoded so far (the encoding
check comes first); if the decoder accepts and the decoding has any other
length it returns a nil key and `ErrInvalidCryptoKey`. -/
theorem key_from_base64_errors (DecodeString : GoString → List Byte × Option Error)
    (key64 : GoString) :
    ((CryptoKeyFromBase64 DecodeString key64).2 = none ↔
      (DecodeString key64).2 = none ∧ (DecodeString key64).1.length = KeySize) ∧
    ((CryptoKeyFromBase64 DecodeString key64).1.isSome ↔
      (DecodeString key64).2 = none ∧ (DecodeString key64).1.length = KeySize) ∧
    (∀ k, (CryptoKeyFromBase64 DecodeString key64).1 = some k →
      k.val = (DecodeString key64).1) ∧
    (∀ e, (DecodeString key64).2 = some e →
      CryptoKeyFromBase64 DecodeString key64 = (none, some e)) ∧
    ((DecodeString key64).2 = none → (DecodeString key64).1.length ≠ KeySize →
      CryptoKeyFromBase64 DecodeString key64 = (none, some ErrInvalidCryptoKey)) := by
  unfold CryptoKeyFromBase64
  rcases hd : DecodeString key64 with ⟨buf, err⟩
  cases err with
  | some e => simp [Check]
  | none =>
    by_cases hl : buf.length = KeySize
    · have hk : ((ByteArr.zero KeySize).copyFrom buf).val = buf :=
        copy_eq_self _ _ (by rw [(ByteArr.zero KeySize).property, hl])
      simp only [Check, Option.isSome_none, Bool.false_eq_true, if_false, hl, bne_self_eq_false,
        true_and, Option.isSome_some, reduceCtorEq, false_implies, implies_true,
        ne_eq, not_true_eq_false, and_true, Option.some.injEq]
      intro k hk2
      rw [← hk2, hk]
    · simp [Check, hl, Fail]

/-- Witness of C5 on the model of `base64.StdEncoding`: the empty text (0
bytes) and the encodings of 31 and of 33 zero bytes are refused for their
length; `!` is refused by the decoder. -/
theorem key_from_base64_errors_witness :
    CryptoKeyFromBase64 StdEncoding.DecodeString [] = (none, some ErrInvalidCryptoKey) ∧
      CryptoKeyFromBase64 StdEncoding.DecodeString
        (ascii "AAAAAAAAAAAAAAAAAAAAAAAAAAAAAAAAAAAAAAAAAA==") =
          (none, some ErrInvalidCryptoKey) ∧
      CryptoKeyFromBase64 StdEncoding.DecodeString
        (ascii "AAAAAAAAAAAAAAAAAAAAAAAAAAAAAAAAAAAAAAAAAAAA") =
          (none, some ErrInvalidCryptoKey) ∧
      CryptoKeyFromBase64 StdEncoding.DecodeString (ascii "!") =
        (none, some (Error.corruptInput 0)) :=
  ⟨(key_from_base64_errors StdEncoding.DecodeString []).2.2.2.2 (by decide) (by decide),
    (key_from_base64_errors StdEncoding.DecodeString
      (ascii "AAAAAAAAAAAAAAAAAAAAAAAAAAAAAAAAAAAAAAAAAA==")).2.2.2.2
      (by set_option maxRecDepth 100000 in decide)
      (by set_option maxRecDepth 100000 in decide),
    (key_from_base64_errors StdEncoding.DecodeString
      (ascii "AAAAAAAAAAAAAAAAAAAAAAAAAAAAAAAAAAAAAAAAAAAA")).2.2.2.2
      (by set_option maxRecDepth 100000 in decide)
      (by set_option maxRecDepth 100000 in decide),
    (key_from_base64_errors StdEncoding.DecodeString (ascii "!")).2.2.2.1
      (Error.corruptInput 0) (by decide)⟩

/-- C9, what the code does. Whenever `strconv.Atoi` returns an error, `Atoi`
returns `-1`, not the `0` of its comment: so on the texts `""`, `abc` and
`12x`, none of them a decimal integer.  When `strconv.Atoi` returns no error
`Atoi` returns its integer: so on `12` and `-12`. -/
theorem Atoi_invalid_returns_minus_one :
    (∀ (parse : GoString → Int × Option Error) (s : GoString) (e : Error),
        (parse s).2 = some e → Atoi parse s = -1) ∧
      (∀ (parse : GoString → Int × Option Error) (s : GoString),
        (parse s).2 = none → Atoi parse s = (parse s).1) ∧
      Atoi strconv.Atoi (ascii "") = -1 ∧ Atoi strconv.Atoi (ascii "abc") = -1 ∧
      Atoi strconv.Atoi (ascii "12x") = -1 ∧ Atoi strconv.Atoi (ascii "12") = 12 ∧
      Atoi strconv.Atoi (ascii "-12") = -12 := by
  refine ⟨?_, ?_, by decide, by decide, by decide, by decide, by decide⟩
  · intro parse s e h
    unfold Atoi
    rcases hp : parse s with ⟨i, err⟩
    rw [hp] at h
    simp only at h
    simp [h, Check]
  · intro parse s h
    unfold Atoi
    rcases hp : parse s with ⟨i, err⟩
    rw [hp] at h
    simp only at h
    simp [h, Check]


/-! ## The base64 model: decoding undoes encoding -/

namespace StdEncoding

theorem decodeMap_encodeChar (v : Nat) : decodeMap (encodeChar v) = v % 64 := by
  have h : ∀ w : Fin 64, decodeMap (encodeChar w.val) = w.val := by decide
  have h2 := h ⟨v % 64, Nat.mod_lt v (by decide)⟩
  have h3 : encodeChar (v % 64) = encodeChar v := by
    unfold encodeChar
    rw [Nat.mod_mod]
  simp only at h2
  rw [h3] at h2
  exact h2

theorem decodeMap_encodeChar_ne (v : Nat) : decodeMap (encodeChar v) ≠ 255 := by
  rw [decodeMap_encodeChar]
  have := Nat.mod_lt v (show 0 < 64 by decide)
  omega

theorem decodeMap_padChar : decodeMap padChar = 255 := by decide

theorem quantumBytes_three (a b c : Byte) :
    quantumBytes
      [(a.val * 2 ^ 16 + b.val * 2 ^ 8 + c.val) / 2 ^ 18 % 64,
        (a.val * 2 ^ 16 + b.val * 2 ^ 8 + c.val) / 2 ^ 12 % 64,
        (a.val * 2 ^ 16 + b.val * 2 ^ 8 + c.val) / 2 ^ 6 % 64,
        (a.val * 2 ^ 16 + b.val * 2 ^ 8 + c.val) % 64] = [a, b, c] := by
  have ha := a.isLt
  have hb := b.isLt
  have hc := c.isLt
  simp only [quantumBytes, List.getD_cons_zero, List.getD_cons_succ, List.length_cons,
    List.length_nil, List.take_succ_cons, List.take_zero, Nat.reduceAdd, Nat.reduceSub,
    Nat.reducePow]
  refine congrArg₂ _ (Fin.ext ?_) (congrArg₂ _ (Fin.ext ?_) (congrArg₂ _ (Fin.ext ?_) rfl))
  · simp only [Fin.ofNat, Fin.val_mk]; omega
  · simp only [Fin.ofNat, Fin.val_mk]; omega
  · simp only [Fin.ofNat, Fin.val_mk]; omega

theorem quantumBytes_two (a b : Byte) :
    quantumBytes
      [(a.val * 2 ^ 16 + b.val * 2 ^ 8) / 2 ^ 18 % 64,
        (a.val * 2 ^ 16 + b.val * 2 ^ 8) / 2 ^ 12 % 64,
        (a.val * 2 ^ 16 + b.val * 2 ^ 8) / 2 ^ 6 % 64] = [a, b] := by
  have ha := a.isLt
  have hb := b.isLt
  simp only [quantumBytes, List.getD_cons_zero, List.getD_cons_succ, List.length_cons,
    List.length_nil, List.take_succ_cons, List.take_zero, Nat.reduceAdd, Nat.reduceSub,
    Nat.reducePow, List.getD_nil]
  refine congrArg₂ _ (Fin.ext ?_) (congrArg₂ _ (Fin.ext ?_) rfl)
  · simp only [Fin.ofNat, Fin.val_mk]; omega
  · simp only [Fin.ofNat, Fin.val_mk]; omega

theorem quantumBytes_one (a : Byte) :
    quantumBytes [(a.val * 2 ^ 16) / 2 ^ 18 % 64, (a.val * 2 ^ 16) / 2 ^ 12 % 64] = [a] := by
  have ha := a.isLt
  simp only [quantumBytes, List.getD_cons_zero, List.getD_cons_succ, List.length_cons,
    List.length_nil, List.take_succ_cons, List.take_zero, Nat.reduceAdd, Nat.reduceSub,
    Nat.reducePow, List.getD_nil]
  refine congrArg₂ _ (Fin.ext ?_) rfl
  simp only [Fin.ofNat, Fin.val_mk]; omega

/-- One character of the alphabet is taken into a quantum that is not yet full. -/
theorem decodeFrom_char (v : Nat) (rest : List Byte) (si : Nat) (dbuf : List Nat)
    (out : List Byte) (h : dbuf.length ≠ 3) :
    decodeFrom (encodeChar v :: rest) si dbuf out =
      decodeFrom rest (si + 1) (dbuf ++ [v % 64]) out := by
  rw [decodeFrom, if_pos (decodeMap_encodeChar_ne v), if_neg h, decodeMap_encodeChar]

/-- The fourth character of a quantum completes it. -/
theorem decodeFrom_char_last (v : Nat) (rest : List Byte) (si : Nat) (dbuf : List Nat)
    (out : List Byte) (h : dbuf.length = 3) :
    decodeFrom (encodeChar v :: rest) si dbuf out =
      decodeFrom rest (si + 1) [] (out ++ quantumBytes (dbuf ++ [v % 64])) := by
  rw [decodeFrom, if_pos (decodeMap_encodeChar_ne v), if_pos h, decodeMap_encodeChar]

theorem padChar_not_newline : ¬ (padChar = 10 ∨ padChar = 13) := by decide

theorem decodeFrom_Encode (src : List Byte) :
    ∀ (si : Nat) (out : List Byte), decodeFrom (Encode src) si [] out = (out ++ src, none) := by
  induction src using Encode.induct with
  | case1 a b c rest ih =>
    intro si out
    rw [Encode]
    rw [decodeFrom_char _ _ _ _ _ (by simp), decodeFrom_char _ _ _ _ _ (by simp),
      decodeFrom_char _ _ _ _ _ (by simp), decodeFrom_char_last _ _ _ _ _ (by simp)]
    simp only [List.nil_append, List.cons_append]
    rw [quantumBytes_three, ih]
    simp
  | case2 a b =>
    intro si out
    rw [Encode]
    rw [decodeFrom_char _ _ _ _ _ (by simp), decodeFrom_char _ _ _ _ _ (by simp),
      decodeFrom_char _ _ _ _ _ (by simp)]
    simp only [List.nil_append, List.cons_append]
    rw [decodeFrom]
    simp only [decodeMap_padChar, ne_eq, not_true_eq_false, if_false, List.length_cons,
      List.length_nil, finishPadded, skipNewlines, padChar_not_newline]
    rw [quantumBytes_two]
    simp
  | case3 a =>
    intro si out
    rw [Encode]
    rw [decodeFrom_char _ _ _ _ _ (by simp), decodeFrom_char _ _ _ _ _ (by simp)]
    simp only [List.nil_append, List.cons_append]
    rw [decodeFrom]
    simp only [decodeMap_padChar, ne_eq, not_true_eq_false, if_false, List.length_cons,
      List.length_nil, finishPadded, skipNewlines, padChar_not_newline]
    rw [quantumBytes_one]
    simp
  | case4 =>
    intro si out
    simp [Encode, decodeFrom]

/-- Decoding undoes encoding: `DecodeString` of `EncodeToString src` is `src`
with a nil error, for every byte sequence. -/
theorem DecodeString_EncodeToString (src : List Byte) :
    DecodeString (EncodeToString src) = (src, none) := by
  unfold DecodeString EncodeToString
  rw [decodeFrom_Encode]
  rfl

end StdEncoding

/-- C4. Key decoding round trip: for every byte sequence `b` of exactly 32
bytes, `CryptoKeyFromBase64` applied to the standard padded base64 encoding
of `b` returns a nil error and a key whose 32 bytes are `b`, in order. -/
theorem key_from_base64_roundtrip (b : List Byte) (hb : b.length = KeySize) :
    CryptoKeyFromBase64 StdEncoding.DecodeString (StdEncoding.EncodeToString b) =
      (some ⟨b, hb⟩, none) := by
  unfold CryptoKeyFromBase64
  rw [StdEncoding.DecodeString_EncodeToString]
  have hk : (ByteArr.zero KeySize).copyFrom b = ⟨b, hb⟩ :=
    Subtype.ext (copy_eq_self _ _ (by rw [(ByteArr.zero KeySize).property, hb]))
  simp [Check, hb, hk]

/-- Witness of C4: the key with bytes `0, 1, ..., 31`, whose encoding is
`AAECAwQFBgcICQoLDA0ODxAREhMUFRYXGBkaGxwdHh8=`. -/
theorem key_from_base64_roundtrip_witness :
    StdEncoding.EncodeToString Toy.countKey.val =
        ascii "AAECAwQFBgcICQoLDA0ODxAREhMUFRYXGBkaGxwdHh8=" ∧
      CryptoKeyFromBase64 StdEncoding.DecodeString
        (ascii "AAECAwQFBgcICQoLDA0ODxAREhMUFRYXGBkaGxwdHh8=") = (some Toy.countKey, none) := by
  have henc : StdEncoding.EncodeToString Toy.countKey.val =
      ascii "AAECAwQFBgcICQoLDA0ODxAREhMUFRYXGBkaGxwdHh8=" := by
    set_option maxRecDepth 100000 in decide
  refine ⟨henc, ?_⟩
  rw [← henc]
  exact key_from_base64_roundtrip Toy.countKey.val Toy.countKey.property

end Utl
